import Mathlib

/-!
Shallow embedding of the Scene Timeline Synthesis & Validation Engine,
i.e. `LLMService._validate_and_fix_scenes` (and the error handling of its
caller `segment_script_and_generate_queries`) from
`src/services/llm_service.py`.

Modelling conventions:
* Python floats are modelled as rationals (`ℚ`); `round(x, 2)` is modelled
  by `round2` (round half to even, as Python's `round` does on exact values).
* A scene `text` field is modelled as the list of its space-separated words
  (`List String`); the source's `" ".join(...)`, `" "`-concatenation and
  `.strip()` correspond to list concatenation with `[]` for the empty string.
* A raw proposal's `start_time` / `end_time` entries are `Option TimeField`:
  `none` models a missing key (the source's `scene.get(..., 0)` default),
  `TimeField.num q` a value that `float(...)` coerces to `q`, and
  `TimeField.bad` a value on which `float(...)` raises.  A raised exception
  is modelled by `Except.error ()`; the caller catches every exception and
  returns an empty scene list (`runEngine`).
* The two `while` loops that walk an interval in `FILLER_CHUNK_SIZE` steps
  are modelled by the fuel-indexed `chunkGo` (fuel exhaustion returns
  `none`); `chunkFuel` supplies enough fuel in the rational model, which is
  proved in `chunkGo_isSome`.
* The rational model makes `current_time + FILLER_CHUNK_SIZE` an exact
  addition.  Python's binary64 addition instead saturates at large
  magnitudes (`c + 8.0 == c` once `c` reaches `2^56`), which changes the
  termination behaviour of the loop; that arithmetic is modelled
  separately by `flRound`/`flAdd`/`floatChunkGo` and analysed in
  `chunk_loop_float_stall`.
-/

structure Word where
  text : String
  start : ℚ
  stop : ℚ
deriving DecidableEq

inductive TimeField where
  | num (q : ℚ)
  | bad
deriving DecidableEq

structure RawProposal where
  start_time : Option TimeField := none
  end_time : Option TimeField := none
  text : List String := []
  visual_query : String := ""
  media_source : Option String := none
deriving DecidableEq

structure Scene where
  start_time : ℚ
  end_time : ℚ
  text : List String
  visual_query : String
  media_source : String
deriving DecidableEq

structure OutScene extends Scene where
  id : ℕ
deriving DecidableEq

/-- `MAX_DURATION = 10.0` from the source. -/
def MAX_DURATION : ℚ := 10

/-- `MIN_DURATION = 0.5` from the source. -/
def MIN_DURATION : ℚ := 1/2

/-- `FILLER_CHUNK_SIZE = 8.0` from the source. -/
def FILLER_CHUNK_SIZE : ℚ := 8

/-- `SPLIT_VARIATIONS` from the source. -/
def SPLIT_VARIATIONS : List String :=
  ["", ", different angle", ", close-up shot", ", wide establishing shot",
   ", dramatic lighting", ", slow motion feel", ", dynamic camera movement",
   ", alternative perspective"]

/-- Round half to even, the tie-breaking used by Python's `round`. -/
def roundHalfEven (x : ℚ) : ℤ :=
  if x - ⌊x⌋ < 1/2 then ⌊x⌋
  else if 1/2 < x - ⌊x⌋ then ⌊x⌋ + 1
  else if ⌊x⌋ % 2 = 0 then ⌊x⌋ else ⌊x⌋ + 1

/-- Model of Python's `round(x, 2)`. -/
def round2 (q : ℚ) : ℚ := (roundHalfEven (q * 100) : ℚ) / 100

/-- `sorted_words`: the word list sorted by start time (Python's stable sort). -/
def sortWords (ws : List Word) : List Word :=
  List.insertionSort (fun a b => a.start ≤ b.start) ws

/-- `get_words_in_range`: words that start within `[a, b)`. -/
def getWordsInRange (ws : List Word) (a b : ℚ) : List Word :=
  (sortWords ws).filter (fun w => decide (a ≤ w.start ∧ w.start < b))

/-- `get_text_for_range`: the texts of the words in `[a, b)` (space-joined in
the source; kept as a word list here). -/
def getTextForRange (ws : List Word) (a b : ℚ) : List String :=
  (getWordsInRange ws a b).map (fun w => w.text)

/-- One step of the interval-chunking `while` loops: `chunk_end =
min(current_time + FILLER_CHUNK_SIZE, end)`, and (only in pass 1, `absorb =
true`) the tiny-last-chunk absorption `if 0 < end - chunk_end < MIN_DURATION:
chunk_end = end`.  The addition is exact here; the saturating binary64
addition the source actually performs is modelled by `floatChunkStep`. -/
def chunkStep (absorb : Bool) (e c : ℚ) : ℚ :=
  if absorb ∧ 0 < e - min (c + FILLER_CHUNK_SIZE) e ∧
      e - min (c + FILLER_CHUNK_SIZE) e < MIN_DURATION
  then e else min (c + FILLER_CHUNK_SIZE) e

/-- Fuel-indexed chunking loop; returns the list of `(current_time,
chunk_end)` pairs, or `none` if the fuel runs out before `current_time`
reaches `e`. -/
def chunkGo (absorb : Bool) (e : ℚ) : ℕ → ℚ → Option (List (ℚ × ℚ))
  | 0, c => if c < e then none else some []
  | n + 1, c =>
    if c < e then
      (chunkGo absorb e n (chunkStep absorb e c)).map
        (fun l => (c, chunkStep absorb e c) :: l)
    else some []

/-- Fuel that always suffices for `chunkGo` (proved in `chunkGo_isSome`). -/
def chunkFuel (e c : ℚ) : ℕ := (⌈(e - c) / FILLER_CHUNK_SIZE⌉).toNat + 1

/-- The chunking `while` loop of the source (total version). -/
def chunkLoop (absorb : Bool) (e c : ℚ) : List (ℚ × ℚ) :=
  (chunkGo absorb e (chunkFuel e c) c).getD []

/-- Round-to-nearest, ties-to-even, onto the binary64 grid (52 fraction
bits): for nonzero `x` the representable neighbours are the integer
multiples of `2 ^ (⌊log2 |x|⌋ - 52)`.  This is the rounding Python floats
perform after every arithmetic operation.  Overflow to infinity and
subnormals are not modelled; all magnitudes used below are in the normal
range. -/
def flRound (x : ℚ) : ℚ :=
  if x = 0 then 0
  else (roundHalfEven (x / 2 ^ (Int.log 2 |x| - 52)) : ℚ) *
    2 ^ (Int.log 2 |x| - 52)

/-- Binary64 addition: what `a + b` computes on Python floats. -/
def flAdd (a b : ℚ) : ℚ := flRound (a + b)

/-- Binary64 subtraction: what `a - b` computes on Python floats. -/
def flSub (a b : ℚ) : ℚ := flRound (a - b)

/-- `chunkStep` as the source actually computes it: `chunk_end =
min(current_time + FILLER_CHUNK_SIZE, end)` with the rounding binary64
addition, and the pass-1 absorption test on the binary64 difference
`end - chunk_end`.  (`min` and comparisons on floats are exact.) -/
def floatChunkStep (absorb : Bool) (e c : ℚ) : ℚ :=
  if absorb ∧ 0 < flSub e (min (flAdd c FILLER_CHUNK_SIZE) e) ∧
      flSub e (min (flAdd c FILLER_CHUNK_SIZE) e) < MIN_DURATION
  then e else min (flAdd c FILLER_CHUNK_SIZE) e

/-- The chunking `while` loop under binary64 arithmetic: same shape as
`chunkGo`, but stepping with `floatChunkStep`.  `none` again means the
given fuel did not suffice. -/
def floatChunkGo (absorb : Bool) (e : ℚ) : ℕ → ℚ → Option (List (ℚ × ℚ))
  | 0, c => if c < e then none else some []
  | n + 1, c =>
    if c < e then
      (floatChunkGo absorb e n (floatChunkStep absorb e c)).map
        (fun l => (c, floatChunkStep absorb e c) :: l)
    else some []

/-- The scene built for one chunk of a split: endpoints rounded to 2 decimal
places, text re-derived from the word timings, visual query varied by
`part % len(SPLIT_VARIATIONS)`. -/
def mkChunkScene (q m : String) (ws : List Word) (part : ℕ) (p : ℚ × ℚ) :
    Scene :=
  { start_time := round2 p.1
    end_time := round2 p.2
    text := getTextForRange ws p.1 p.2
    visual_query :=
      (if q ≠ "" then q else "Atmospheric scene") ++
        SPLIT_VARIATIONS.getD (part % SPLIT_VARIATIONS.length) ""
    media_source := m }

/-- Builds the chunk scenes, threading the `part` counter. -/
def chunkScenes (q m : String) (ws : List Word) :
    ℕ → List (ℚ × ℚ) → List Scene
  | _, [] => []
  | part, p :: rest =>
    mkChunkScene q m ws part p :: chunkScenes q m ws (part + 1) rest

/-- Splitting an over-long time range `[a, b]` by time.  Pass 1 uses
`absorb = true` and starts its `part` counter at `1`; the pass-3 safety net
uses `absorb = false` and starts at `0`. -/
def splitByTime (absorb : Bool) (startPart : ℕ) (a b : ℚ)
    (q m : String) (ws : List Word) : List Scene :=
  chunkScenes q m ws startPart (chunkLoop absorb b a)

/-- `float(scene.get('start_time', 0))`: a missing key coerces to `0`, a bad
value raises. -/
def coerceTime : Option TimeField → Except Unit ℚ
  | none => .ok 0
  | some (.num q) => .ok q
  | some .bad => .error ()

/-- Pass-1 treatment of one proposal: drop non-positive durations, keep
durations `≤ MAX_DURATION` as-is (rounded), split longer ones. -/
def normalizeProposal (ws : List Word) (p : RawProposal) :
    Except Unit (List Scene) := do
  let s ← coerceTime p.start_time
  let e ← coerceTime p.end_time
  if e - s ≤ 0 then
    return []
  else if e - s ≤ MAX_DURATION then
    return [{ start_time := round2 s
              end_time := round2 e
              text := p.text
              visual_query := p.visual_query
              media_source := p.media_source.getD "pollinations" }]
  else
    return splitByTime true 1 s e p.visual_query
      (p.media_source.getD "pollinations") ws

/-- PASS 1: split any scene `> MAX_DURATION`; an exception on any proposal
aborts the whole pass (as `float(...)` raising does in the source). -/
def pass1 (ws : List Word) : List RawProposal → Except Unit (List Scene)
  | [] => .ok []
  | p :: rest => do
    let s ← normalizeProposal ws p
    let others ← pass1 ws rest
    return s ++ others

/-- Short-segment merge: `prev.end_time = max(prev.end_time, curr.end_time)`
and text concatenation when `curr.text` is non-empty. -/
def mergeShort (prev curr : Scene) : Scene :=
  { prev with
    end_time := max prev.end_time curr.end_time
    text := if curr.text ≠ [] then prev.text ++ curr.text else prev.text }

/-- Gap-filling scenes spanning `[prev.end_time, upto)` in
`FILLER_CHUNK_SIZE` steps (no tiny-chunk absorption in this loop). -/
def fillerScenes (prev : Scene) (upto : ℚ) : List Scene :=
  (chunkLoop false upto prev.end_time).map (fun p =>
    { start_time := round2 p.1
      end_time := round2 p.2
      text := []
      visual_query := prev.visual_query ++ " (Atmospheric)"
      media_source := prev.media_source })

/-- Overlap handling for `curr` in pass 2: when the gap is below `-0.1`,
clamp `curr.start_time` to `prev.end_time`, and if that leaves
`curr.end_time <= curr.start_time`, push the end out by `MIN_DURATION`.
Within tolerance the scene is left untouched. -/
def adjustOverlap (prev scene : Scene) : Scene :=
  if scene.start_time - prev.end_time < -(1/10) then
    if scene.end_time ≤ prev.end_time then
      { scene with start_time := prev.end_time,
                   end_time := prev.end_time + MIN_DURATION }
    else { scene with start_time := prev.end_time }
  else scene

/-- PASS 2 body for one scene.  `prev` is the last accepted scene; note that
in the gap branch the merge rewrites `prev` in place even though the fillers
were already appended after it, exactly as the source does. -/
def pass2Step (acc : List Scene) (scene : Scene) : List Scene :=
  match acc.getLast? with
  | none => [scene]
  | some prev =>
    if 1/10 < scene.start_time - prev.end_time then
      if scene.end_time - scene.start_time < MIN_DURATION then
        acc.dropLast ++ [mergeShort prev scene] ++
          fillerScenes prev scene.start_time
      else
        acc ++ fillerScenes prev scene.start_time ++ [scene]
    else
      if (adjustOverlap prev scene).end_time -
          (adjustOverlap prev scene).start_time < MIN_DURATION then
        acc.dropLast ++ [mergeShort prev (adjustOverlap prev scene)]
      else
        acc ++ [adjustOverlap prev scene]

/-- PASS 2: fill gaps, fix overlaps, merge very short scenes. -/
def pass2 (l : List Scene) : List Scene := l.foldl pass2Step []

/-- PASS 3: the safety net - re-split any scene still `> MAX_DURATION`,
with `part` starting at `0` and no tiny-last-chunk absorption. -/
def pass3 (ws : List Word) (l : List Scene) : List Scene :=
  l.flatMap (fun s =>
    if s.end_time - s.start_time ≤ MAX_DURATION then [s]
    else splitByTime false 0 s.start_time s.end_time
      s.visual_query s.media_source ws)

/-- Sequential id assignment (`scene['id'] = i + 1`). -/
def assignIdsFrom (n : ℕ) : List Scene → List OutScene
  | [] => []
  | s :: rest => { toScene := s, id := n } :: assignIdsFrom (n + 1) rest

def assignIds (l : List Scene) : List OutScene := assignIdsFrom 1 l

/-- `_validate_and_fix_scenes`: the four passes chained; `Except.error`
models an uncaught exception escaping the method. -/
def validateAndFixScenes (ws : List Word) (ps : List RawProposal) :
    Except Unit (List OutScene) :=
  if ps.isEmpty then .ok []
  else do
    let split ← pass1 ws ps
    if split.isEmpty then
      return []
    else
      let sorted := List.insertionSort
        (fun a b => a.start_time ≤ b.start_time) split
      return assignIds (pass3 ws (pass2 sorted))

/-- The engine as observed through its caller
`segment_script_and_generate_queries`, whose `except Exception` handler turns
any raised exception into an empty scene list. -/
def runEngine (ws : List Word) (ps : List RawProposal) : List OutScene :=
  match validateAndFixScenes ws ps with
  | .ok l => l
  | .error _ => []

/-- Re-feeding an output scene to the engine (used for the idempotence
claim): every field becomes a well-formed proposal field. -/
def sceneToProposal (s : OutScene) : RawProposal :=
  { start_time := some (.num s.start_time)
    end_time := some (.num s.end_time)
    text := s.text
    visual_query := s.visual_query
    media_source := some s.media_source }

/-- Shorthand for a proposal with numeric timing fields. -/
def mkProp (a b : ℚ) (txt : List String := []) (q : String := "") :
    RawProposal :=
  { start_time := some (.num a), end_time := some (.num b),
    text := txt, visual_query := q }

/-- Two proposals with a 5s hole and a 0.3s second scene: the merge then
stretches the first scene past the already-inserted filler. -/
def cexOverlapRun : List RawProposal :=
  [mkProp 0 5 [] "qa", mkProp 10 (103/10) ["b"] "qb"]

/-- Two proposals 0.2s apart: the reconciler inserts a 0.2s filler. -/
def cexTinyFiller : List RawProposal :=
  [mkProp 0 5 ["a"] "qa", mkProp (26/5) 6 ["b"] "qb"]

/-- Word timings spanning 0 to 6 seconds. -/
def cexTinyFillerWords : List Word :=
  [{ text := "alpha", start := 0, stop := 2/5 },
   { text := "zulu", start := 11/2, stop := 6 }]

/-- Scenario 1 of the spec: one 15s proposal with query "q". -/
def scenario1Props : List RawProposal := [mkProp 0 15 [] "q"]

/-- Word timings covering 0 to 15 seconds. -/
def scenario1Words : List Word :=
  [{ text := "hello", start := 0, stop := 7 },
   { text := "world", start := 8, stop := 15 }]

/-- A proposal whose text is not drawn from the word timings. -/
def cexInvented : List RawProposal := [mkProp 0 5 ["hello"] ""]

/-- Word timings that never say "hello". -/
def cexInventedWords : List Word :=
  [{ text := "world", start := 0, stop := 1 }]

/-- A well-formed proposal. -/
def goodProp : RawProposal := mkProp 0 5

/-- A proposal whose `start_time` makes `float(...)` raise. -/
def badProp : RawProposal :=
  { start_time := some .bad, end_time := some (.num 5) }

/-- A 5s scene and a far-away 0.3s scene: the reconciler's merge re-expands
the first scene to 16.3s, which then reaches the safety net. -/
def cexResplit : List RawProposal :=
  [mkProp 0 5 [] "qa", mkProp 16 (163/10) ["b"] "qb"]

/-- Exactly contiguous proposals, durations all at most 10s: a 10s scene,
thirteen 0.49s scenes (all merged into it, stretching it to 16.37s), and a
final 3.63s scene.  The safety net re-splits the merged scene with a 0.37s
trailing chunk, which a second engine run merges away. -/
def cexIdem : List RawProposal :=
  mkProp 0 10 [] "v" ::
    ((List.range 13).map (fun i =>
      mkProp (10 + 49/100 * (i : ℚ)) (10 + 49/100 * ((i : ℚ) + 1))) ++
      [mkProp (1637/100) 20 [] "w"])

/-- The numeric value of a well-formed `start_time` field (0 otherwise);
agrees with `coerceTime` on proposals that satisfy `goodTimed`. -/
def startOf (p : RawProposal) : ℚ :=
  match p.start_time with
  | some (.num a) => a
  | _ => 0

/-- The numeric value of a well-formed `end_time` field (0 otherwise). -/
def endOf (p : RawProposal) : ℚ :=
  match p.end_time with
  | some (.num b) => b
  | _ => 0

/-- Both timing fields present and numeric. -/
def goodTimed (p : RawProposal) : Prop :=
  (∃ a, p.start_time = some (.num a)) ∧ (∃ b, p.end_time = some (.num b))

/-- A timing field on which `float(...)` raises. -/
def hasBadTime (p : RawProposal) : Prop :=
  p.start_time = some .bad ∨ p.end_time = some .bad

/-- The scene pass 1 produces for a kept (duration in `(0, MAX_DURATION]`)
proposal. -/
def keepScene (p : RawProposal) : Scene :=
  { start_time := round2 (startOf p)
    end_time := round2 (endOf p)
    text := p.text
    visual_query := p.visual_query
    media_source := p.media_source.getD "pollinations" }

/-! ### Arithmetic facts about `roundHalfEven` and `round2` -/

set_option maxRecDepth 100000

lemma floor_le_roundHalfEven (x : ℚ) : ⌊x⌋ ≤ roundHalfEven x := by
  unfold roundHalfEven
  split_ifs <;> omega

lemma roundHalfEven_le_floor_add_one (x : ℚ) : roundHalfEven x ≤ ⌊x⌋ + 1 := by
  unfold roundHalfEven
  split_ifs <;> omega

lemma sub_half_le_roundHalfEven (x : ℚ) : x - 1/2 ≤ (roundHalfEven x : ℚ) := by
  have h1 : (⌊x⌋ : ℚ) ≤ x := Int.floor_le x
  have h2 : x < ⌊x⌋ + 1 := Int.lt_floor_add_one x
  unfold roundHalfEven
  split_ifs with ha hb hc <;> push_cast <;> linarith

lemma roundHalfEven_le_add_half (x : ℚ) : (roundHalfEven x : ℚ) ≤ x + 1/2 := by
  have h1 : (⌊x⌋ : ℚ) ≤ x := Int.floor_le x
  have h2 : x < ⌊x⌋ + 1 := Int.lt_floor_add_one x
  unfold roundHalfEven
  split_ifs with ha hb hc <;> push_cast <;> linarith

lemma roundHalfEven_intCast (k : ℤ) : roundHalfEven (k : ℚ) = k := by
  unfold roundHalfEven
  rw [Int.floor_intCast]
  simp

lemma roundHalfEven_add_even (x : ℚ) (k : ℤ) (hk : k % 2 = 0) :
    roundHalfEven (x + (k : ℚ)) = roundHalfEven x + k := by
  unfold roundHalfEven
  rw [Int.floor_add_int]
  have hx : x + (k : ℚ) - ((⌊x⌋ + k : ℤ) : ℚ) = x - (⌊x⌋ : ℚ) := by
    push_cast; ring
  rw [hx]
  split_ifs with h1 h2 h3 h4 <;> omega

lemma roundHalfEven_mono {x y : ℚ} (h : x ≤ y) :
    roundHalfEven x ≤ roundHalfEven y := by
  rcases lt_or_eq_of_le (Int.floor_mono h) with hf | hf
  · calc roundHalfEven x ≤ ⌊x⌋ + 1 := roundHalfEven_le_floor_add_one x
      _ ≤ ⌊y⌋ := by omega
      _ ≤ roundHalfEven y := floor_le_roundHalfEven y
  · have hfr : x - (⌊x⌋ : ℚ) ≤ y - (⌊y⌋ : ℚ) := by
      rw [← hf]; linarith
    unfold roundHalfEven
    rw [← hf]
    split_ifs with h1 h2 h3 h4 h5 h6 h7 <;>
      first | omega | linarith

lemma round2_ge (q : ℚ) : q - 1/200 ≤ round2 q := by
  unfold round2
  have := sub_half_le_roundHalfEven (q * 100)
  linarith

lemma round2_le (q : ℚ) : round2 q ≤ q + 1/200 := by
  unfold round2
  have := roundHalfEven_le_add_half (q * 100)
  linarith

lemma round2_mono {a b : ℚ} (h : a ≤ b) : round2 a ≤ round2 b := by
  unfold round2
  have h1 := roundHalfEven_mono (x := a * 100) (y := b * 100) (by linarith)
  have h2 : ((roundHalfEven (a * 100) : ℚ)) ≤ ((roundHalfEven (b * 100) : ℚ)) := by
    exact_mod_cast h1
  linarith

lemma round2_int_div (k : ℤ) : round2 ((k : ℚ) / 100) = (k : ℚ) / 100 := by
  unfold round2
  have : (k : ℚ) / 100 * 100 = (k : ℚ) := by field_simp
  rw [this, roundHalfEven_intCast]

lemma round2_idem (q : ℚ) : round2 (round2 q) = round2 q := by
  unfold round2
  have : (roundHalfEven (q * 100) : ℚ) / 100 * 100 = (roundHalfEven (q * 100) : ℚ) := by
    field_simp
  rw [this, roundHalfEven_intCast]

lemma round2_add_half (a : ℚ) : round2 (a + 1/2) = round2 a + 1/2 := by
  unfold round2
  have h : (a + 1/2) * 100 = a * 100 + (50 : ℤ) := by push_cast; ring
  rw [h, roundHalfEven_add_even _ 50 (by norm_num)]
  push_cast; ring

lemma round2_add_ten (a : ℚ) : round2 (a + 10) = round2 a + 10 := by
  unfold round2
  have h : (a + 10) * 100 = a * 100 + (1000 : ℤ) := by push_cast; ring
  rw [h, roundHalfEven_add_even _ 1000 (by norm_num)]
  push_cast; ring

/-- Durations between `MIN_DURATION` and `MAX_DURATION` stay in that band
after rounding both endpoints to 2 decimal places. -/
lemma round2_dur_bounds {a b : ℚ} (h1 : 1/2 ≤ b - a) (h2 : b - a ≤ 10) :
    1/2 ≤ round2 b - round2 a ∧ round2 b - round2 a ≤ 10 := by
  have hdiff : round2 b - round2 a =
      ((roundHalfEven (b * 100) - roundHalfEven (a * 100) : ℤ) : ℚ) / 100 := by
    unfold round2; push_cast; ring
  set D : ℤ := roundHalfEven (b * 100) - roundHalfEven (a * 100) with hD
  constructor
  · rcases eq_or_lt_of_le h1 with he | hl
    · have hb : b = a + 1/2 := by linarith
      rw [hb, round2_add_half]; linarith
    · have hge : round2 b - round2 a > 49/100 := by
        have := round2_ge b
        have := round2_le a
        linarith
      rw [hdiff] at hge ⊢
      have h49 : (49 : ℤ) < D := by
        by_contra hc
        push_neg at hc
        have hc' : ((D : ℤ) : ℚ) ≤ 49 := by exact_mod_cast hc
        linarith
      have h50 : ((50 : ℚ)) ≤ ((D : ℤ) : ℚ) := by
        exact_mod_cast (by omega : (50:ℤ) ≤ D)
      linarith
  · rcases eq_or_lt_of_le h2 with he | hl
    · have hb : b = a + 10 := by linarith
      rw [hb, round2_add_ten]; linarith
    · have hle : round2 b - round2 a < 1001/100 := by
        have := round2_le b
        have := round2_ge a
        linarith
      rw [hdiff] at hle ⊢
      have h1001 : D < (1001 : ℤ) := by
        by_contra hc
        push_neg at hc
        have hc' : ((1001 : ℚ)) ≤ ((D : ℤ) : ℚ) := by exact_mod_cast hc
        linarith
      have h1000 : ((D : ℤ) : ℚ) ≤ ((1000 : ℚ)) := by
        exact_mod_cast (by omega : D ≤ (1000:ℤ))
      linarith

/-! ### Properties of the chunking loop -/

lemma chunkGo_of_ge {absorb : Bool} {e : ℚ} (n : ℕ) {c : ℚ} (h : ¬ c < e) :
    chunkGo absorb e n c = some [] := by
  cases n <;> simp [chunkGo, h]

lemma chunkStep_gt {absorb : Bool} {e c : ℚ} (h : c < e) :
    c < chunkStep absorb e c := by
  unfold chunkStep FILLER_CHUNK_SIZE MIN_DURATION
  split_ifs with hc
  · exact h
  · exact lt_min_iff.mpr ⟨by linarith, h⟩

lemma chunkStep_le {absorb : Bool} {e c : ℚ} :
    chunkStep absorb e c ≤ e := by
  unfold chunkStep FILLER_CHUNK_SIZE MIN_DURATION
  split_ifs with hc
  · exact le_refl e
  · exact min_le_right _ _

lemma chunkStep_measure {absorb : Bool} {e c : ℚ} (h : c < e) :
    (⌈(e - chunkStep absorb e c) / FILLER_CHUNK_SIZE⌉).toNat <
      (⌈(e - c) / FILLER_CHUNK_SIZE⌉).toNat := by
  have hpos : 0 < ⌈(e - c) / FILLER_CHUNK_SIZE⌉ := by
    rw [Int.ceil_pos]
    unfold FILLER_CHUNK_SIZE
    exact div_pos (by linarith) (by norm_num)
  have hcase : chunkStep absorb e c = e ∨
      (chunkStep absorb e c = c + FILLER_CHUNK_SIZE ∧ c + FILLER_CHUNK_SIZE ≤ e) := by
    unfold chunkStep
    split_ifs with hc
    · exact Or.inl rfl
    · rcases le_total (c + FILLER_CHUNK_SIZE) e with hce | hce
      · exact Or.inr ⟨min_eq_left hce, hce⟩
      · exact Or.inl (min_eq_right hce)
  rcases hcase with hs | ⟨hs, hce⟩
  · rw [hs]
    simp only [sub_self, zero_div, Int.ceil_zero, Int.toNat_zero]
    omega
  · rw [hs]
    have hrw : (e - (c + FILLER_CHUNK_SIZE)) / FILLER_CHUNK_SIZE =
        (e - c) / FILLER_CHUNK_SIZE - 1 := by
      unfold FILLER_CHUNK_SIZE
      field_simp
      ring
    rw [hrw, Int.ceil_sub_one]
    have hce8 : c + 8 ≤ e := by
      simpa [FILLER_CHUNK_SIZE] using hce
    have hone : (1 : ℚ) ≤ (e - c) / FILLER_CHUNK_SIZE := by
      unfold FILLER_CHUNK_SIZE
      rw [le_div_iff₀ (by norm_num : (0:ℚ) < 8)]
      linarith
    have : (1 : ℤ) ≤ ⌈(e - c) / FILLER_CHUNK_SIZE⌉ := by
      calc (1 : ℤ) = ⌈(1 : ℚ)⌉ := by simp
        _ ≤ ⌈(e - c) / FILLER_CHUNK_SIZE⌉ := Int.ceil_mono hone
    omega

lemma chunkGo_isSome (absorb : Bool) (e : ℚ) :
    ∀ n c, (⌈(e - c) / FILLER_CHUNK_SIZE⌉).toNat < n →
      (chunkGo absorb e n c).isSome := by
  intro n
  induction n with
  | zero => intro c h; omega
  | succ n ih =>
    intro c h
    by_cases hc : c < e
    · have hrec := ih (chunkStep absorb e c) (by
        have := @chunkStep_measure absorb e c hc
        omega)
      simp only [chunkGo, if_pos hc]
      cases hgo : chunkGo absorb e n (chunkStep absorb e c) with
      | none => rw [hgo] at hrec; simp at hrec
      | some l => simp
    · simp [chunkGo, hc]

lemma chunkLoop_some (absorb : Bool) (e c : ℚ) :
    chunkGo absorb e (chunkFuel e c) c = some (chunkLoop absorb e c) := by
  have h := chunkGo_isSome absorb e (chunkFuel e c) c (by unfold chunkFuel; omega)
  obtain ⟨l, hl⟩ := Option.isSome_iff_exists.mp h
  rw [chunkLoop, hl]
  rfl

lemma chunkGo_length {absorb : Bool} {e : ℚ} :
    ∀ {n : ℕ} {c : ℚ} {l : List (ℚ × ℚ)}, chunkGo absorb e n c = some l →
      l.length ≤ (⌈(e - c) / FILLER_CHUNK_SIZE⌉).toNat := by
  intro n
  induction n with
  | zero =>
    intro c l hl
    by_cases hc : c < e <;> simp [chunkGo, hc] at hl
    subst hl; simp
  | succ n ih =>
    intro c l hl
    by_cases hc : c < e
    · simp only [chunkGo, if_pos hc, Option.map_eq_some'] at hl
      obtain ⟨l', hl', rfl⟩ := hl
      have := ih hl'
      have := @chunkStep_measure absorb e c hc
      simp only [List.length_cons]
      omega
    · simp only [chunkGo, if_neg hc, Option.some.injEq] at hl
      subst hl; simp

lemma chunkStep_true_cases {e c : ℚ} (h : 1/2 ≤ e - c) :
    1/2 ≤ chunkStep true e c - c ∧
      (chunkStep true e c = e ∨ 1/2 ≤ e - chunkStep true e c) := by
  unfold chunkStep FILLER_CHUNK_SIZE MIN_DURATION
  split_ifs with hc
  · exact ⟨by linarith, Or.inl rfl⟩
  · simp only [show (true = true) = True from by simp, true_and] at hc
    push_neg at hc
    rcases le_total (c + 8) e with hce | hce
    · rw [min_eq_left hce] at hc ⊢
      refine ⟨by linarith, ?_⟩
      rcases lt_or_ge 0 (e - (c + 8)) with hr | hr
      · exact Or.inr (hc hr)
      · exact Or.inl (by linarith)
    · rw [min_eq_right hce]
      exact ⟨by linarith, Or.inl rfl⟩

lemma chunkGo_min_dur {e : ℚ} :
    ∀ {n : ℕ} {c : ℚ} {l : List (ℚ × ℚ)}, chunkGo true e n c = some l →
      1/2 ≤ e - c → ∀ p ∈ l, 1/2 ≤ p.2 - p.1 := by
  intro n
  induction n with
  | zero =>
    intro c l hl hd p hp
    have hc : c < e := by linarith
    simp [chunkGo, hc] at hl
  | succ n ih =>
    intro c l hl hd p hp
    have hc : c < e := by linarith
    simp only [chunkGo, if_pos hc, Option.map_eq_some'] at hl
    obtain ⟨l', hl', rfl⟩ := hl
    obtain ⟨hhead, hrest⟩ := chunkStep_true_cases hd
    rcases List.mem_cons.mp hp with rfl | hmem
    · exact hhead
    · rcases hrest with hse | hge
      · rw [hse, chunkGo_of_ge n (lt_irrefl e)] at hl'
        simp only [Option.some.injEq] at hl'
        subst hl'
        simp at hmem
      · exact ih hl' hge p hmem

lemma chunkStep_false_eq (e c : ℚ) :
    chunkStep false e c = min (c + FILLER_CHUNK_SIZE) e := by
  unfold chunkStep
  rw [if_neg]
  intro hcon
  simp at hcon

/-- Without a remainder in `(0, MIN_DURATION)` anywhere along the walk, the
absorbing and non-absorbing chunk loops coincide. -/
lemma chunkGo_agree {e : ℚ} :
    ∀ (n : ℕ) (c : ℚ),
      (∀ k : ℕ, ¬(0 < e - c - 8 * (k : ℚ) ∧ e - c - 8 * (k : ℚ) < 1/2)) →
      chunkGo true e n c = chunkGo false e n c := by
  intro n
  induction n with
  | zero => intro c _; rfl
  | succ n ih =>
    intro c hk
    by_cases hc : c < e
    · have hcond : ¬(0 < e - min (c + FILLER_CHUNK_SIZE) e ∧
          e - min (c + FILLER_CHUNK_SIZE) e < MIN_DURATION) := by
        unfold FILLER_CHUNK_SIZE MIN_DURATION
        rcases le_total (c + 8) e with hce | hce
        · rw [min_eq_left hce]
          have h1 := hk 1
          push_cast at h1
          intro hcon
          exact h1 ⟨by linarith [hcon.1], by linarith [hcon.2]⟩
        · rw [min_eq_right hce]
          simp
      have hstep : chunkStep true e c = chunkStep false e c := by
        rw [chunkStep_false_eq]
        unfold chunkStep
        rw [if_neg]
        intro hcon
        exact hcond hcon.2
      have hnext : ∀ k : ℕ,
          ¬(0 < e - chunkStep false e c - 8 * (k : ℚ) ∧
            e - chunkStep false e c - 8 * (k : ℚ) < 1/2) := by
        intro k
        rw [chunkStep_false_eq]
        unfold FILLER_CHUNK_SIZE
        rcases le_total (c + 8) e with hce | hce
        · rw [min_eq_left hce]
          have := hk (k + 1)
          push_cast at this
          intro hcon
          exact this ⟨by linarith [hcon.1], by linarith [hcon.2]⟩
        · rw [min_eq_right hce]
          intro hcon
          have hknn : (0:ℚ) ≤ 8 * (k : ℚ) := by positivity
          linarith [hcon.1]
      simp only [chunkGo, if_pos hc, hstep, ih (chunkStep false e c) hnext]
    · simp [chunkGo, hc]

lemma chunkLoop_agree {e c : ℚ}
    (hk : ∀ k : ℕ, ¬(0 < e - c - 8 * (k : ℚ) ∧ e - c - 8 * (k : ℚ) < 1/2)) :
    chunkLoop true e c = chunkLoop false e c := by
  unfold chunkLoop
  rw [chunkGo_agree _ c hk]

lemma chunkScenes_mem {q m : String} {ws : List Word} :
    ∀ {l : List (ℚ × ℚ)} {part : ℕ} {s : Scene},
      s ∈ chunkScenes q m ws part l → ∃ k, ∃ p ∈ l, s = mkChunkScene q m ws k p := by
  intro l
  induction l with
  | nil => intro part s hs; simp [chunkScenes] at hs
  | cons p rest ih =>
    intro part s hs
    simp only [chunkScenes, List.mem_cons] at hs
    rcases hs with rfl | hmem
    · exact ⟨part, p, List.mem_cons_self p rest, rfl⟩
    · obtain ⟨k, p', hp', hs⟩ := ih hmem
      exact ⟨k, p', List.mem_cons_of_mem p hp', hs⟩

lemma chunkScenes_map_triple {q m : String} {ws : List Word} :
    ∀ (l : List (ℚ × ℚ)) (p1 p2 : ℕ),
      (chunkScenes q m ws p1 l).map (fun s => (s.start_time, s.end_time, s.text)) =
        (chunkScenes q m ws p2 l).map (fun s => (s.start_time, s.end_time, s.text)) := by
  intro l
  induction l with
  | nil => intro p1 p2; rfl
  | cons p rest ih =>
    intro p1 p2
    simp only [chunkScenes, List.map_cons, mkChunkScene]
    exact congrArg _ (ih (p1 + 1) (p2 + 1))

/-! ### The sequencer -/

lemma assignIdsFrom_toScene :
    ∀ (l : List Scene) (n : ℕ), (assignIdsFrom n l).map (fun o => o.toScene) = l := by
  intro l
  induction l with
  | nil => intro n; rfl
  | cons s rest ih =>
    intro n
    simp only [assignIdsFrom, List.map_cons, ih]

lemma assignIdsFrom_mem :
    ∀ {l : List Scene} {n : ℕ} {o : OutScene}, o ∈ assignIdsFrom n l → o.toScene ∈ l := by
  intro l
  induction l with
  | nil => intro n o ho; simp [assignIdsFrom] at ho
  | cons s rest ih =>
    intro n o ho
    simp only [assignIdsFrom, List.mem_cons] at ho
    rcases ho with rfl | hmem
    · exact List.mem_cons_self _ _
    · exact List.mem_cons_of_mem _ (ih hmem)

lemma assignIdsFrom_get :
    ∀ (l : List Scene) (n i : ℕ) (h : i < (assignIdsFrom n l).length),
      ((assignIdsFrom n l).get ⟨i, h⟩).id = n + i := by
  intro l
  induction l with
  | nil => intro n i h; simp [assignIdsFrom] at h
  | cons s rest ih =>
    intro n i h
    cases i with
    | zero => simp [assignIdsFrom]
    | succ i =>
      have h' : i < (assignIdsFrom (n + 1) rest).length := by
        simpa [assignIdsFrom] using h
      simp only [assignIdsFrom, List.get_cons_succ]
      rw [ih (n + 1) i h']
      omega

/-! ### Pass 3: the safety net -/

lemma pass3_eq_self {ws : List Word} {l : List Scene}
    (h : ∀ s ∈ l, s.end_time - s.start_time ≤ MAX_DURATION) : pass3 ws l = l := by
  induction l with
  | nil => rfl
  | cons s rest ih =>
    rw [pass3, List.flatMap_cons, if_pos (h s (List.mem_cons_self s rest))]
    rw [pass3] at ih
    rw [ih (fun t ht => h t (List.mem_cons_of_mem _ ht))]
    rfl

/-! ### Pass 1 -/

lemma coerceTime_good {p : RawProposal} (hg : goodTimed p) :
    coerceTime p.start_time = .ok (startOf p) ∧
      coerceTime p.end_time = .ok (endOf p) := by
  obtain ⟨⟨a, ha⟩, ⟨b, hb⟩⟩ := hg
  constructor <;> simp [coerceTime, startOf, endOf, ha, hb]

lemma normalizeProposal_keep {ws : List Word} {p : RawProposal} (hg : goodTimed p)
    (h1 : 0 < endOf p - startOf p) (h2 : endOf p - startOf p ≤ MAX_DURATION) :
    normalizeProposal ws p = .ok [keepScene p] := by
  obtain ⟨hcs, hce⟩ := coerceTime_good hg
  simp only [normalizeProposal, bind, Except.bind, hcs, hce]
  rw [if_neg (by linarith), if_pos h2]
  rfl

lemma normalizeProposal_bad {ws : List Word} {p : RawProposal} (h : hasBadTime p) :
    normalizeProposal ws p = .error () := by
  rcases h with h | h
  · simp [normalizeProposal, bind, Except.bind, h, coerceTime]
  · cases hs : p.start_time with
    | none => simp [normalizeProposal, bind, Except.bind, hs, h, coerceTime]
    | some t =>
      cases t <;> simp [normalizeProposal, bind, Except.bind, hs, h, coerceTime]

lemma pass1_keep {ws : List Word} : ∀ {ps : List RawProposal},
    (∀ p ∈ ps, goodTimed p) →
    (∀ p ∈ ps, 0 < endOf p - startOf p ∧ endOf p - startOf p ≤ MAX_DURATION) →
    pass1 ws ps = .ok (ps.map keepScene) := by
  intro ps
  induction ps with
  | nil => intro _ _; rfl
  | cons p rest ih =>
    intro hg hd
    have h1 := @normalizeProposal_keep ws p (hg p (List.mem_cons_self p rest))
      (hd p (List.mem_cons_self p rest)).1 (hd p (List.mem_cons_self p rest)).2
    have h2 := ih (fun q hq => hg q (List.mem_cons_of_mem _ hq))
      (fun q hq => hd q (List.mem_cons_of_mem _ hq))
    simp [pass1, bind, Except.bind, h1, h2]
    rfl

lemma pass1_error {ws : List Word} : ∀ {ps : List RawProposal},
    (∃ p ∈ ps, hasBadTime p) → pass1 ws ps = .error () := by
  intro ps
  induction ps with
  | nil => intro h; simp at h
  | cons p rest ih =>
    intro h
    obtain ⟨p', hp', hbad⟩ := h
    rcases List.mem_cons.mp hp' with rfl | hmem
    · simp [pass1, bind, Except.bind, normalizeProposal_bad hbad]
    · cases hn : normalizeProposal ws p with
      | error u => simp [pass1, bind, Except.bind, hn]
      | ok s => simp [pass1, bind, Except.bind, hn, ih ⟨p', hmem, hbad⟩]

/-! ### Pass 2 -/

lemma adjustOverlap_id {prev r : Scene} (h : r.start_time = prev.end_time) :
    adjustOverlap prev r = r := by
  unfold adjustOverlap
  rw [if_neg]
  rw [h]
  norm_num

lemma pass2Step_contig {acc : List Scene} {prev r : Scene}
    (hlast : acc.getLast? = some prev)
    (hstart : r.start_time = prev.end_time)
    (hdur : MIN_DURATION ≤ r.end_time - r.start_time) :
    pass2Step acc r = acc ++ [r] := by
  have hgap : r.start_time - prev.end_time = 0 := by rw [hstart]; ring
  simp only [pass2Step, hlast]
  rw [hgap]
  rw [if_neg (by norm_num), adjustOverlap_id hstart,
    if_neg (not_lt.mpr hdur)]

lemma foldl_pass2Step_contig :
    ∀ (rest acc : List Scene) (prev : Scene),
      acc.getLast? = some prev →
      List.Chain' (fun a b => b.start_time = a.end_time) (prev :: rest) →
      (∀ s ∈ rest, MIN_DURATION ≤ s.end_time - s.start_time) →
      rest.foldl pass2Step acc = acc ++ rest := by
  intro rest
  induction rest with
  | nil => intro acc prev _ _ _; simp
  | cons r rest' ih =>
    intro acc prev hlast hchain hdur
    have hrel : r.start_time = prev.end_time := (List.chain'_cons.mp hchain).1
    rw [List.foldl_cons,
      pass2Step_contig hlast hrel (hdur r (List.mem_cons_self r rest'))]
    have := ih (acc ++ [r]) r (List.getLast?_concat acc)
      (List.chain'_cons.mp hchain).2
      (fun s hs => hdur s (List.mem_cons_of_mem _ hs))
    rw [this, List.append_assoc]
    rfl

/-- On an exactly contiguous list whose scenes all meet the minimum
duration, the reconciler is the identity. -/
lemma pass2_id {l : List Scene}
    (hchain : List.Chain' (fun a b => b.start_time = a.end_time) l)
    (hdur : ∀ s ∈ l, MIN_DURATION ≤ s.end_time - s.start_time) :
    pass2 l = l := by
  cases l with
  | nil => rfl
  | cons s rest =>
    rw [pass2, List.foldl_cons]
    have hstep : pass2Step [] s = [s] := by
      unfold pass2Step
      rfl
    rw [hstep, foldl_pass2Step_contig rest [s] s rfl hchain
      (fun t ht => hdur t (List.mem_cons_of_mem _ ht))]
    rfl

/-! ### Text provenance -/

lemma getTextForRange_sub {ws : List Word} {a b : ℚ} :
    ∀ t ∈ getTextForRange ws a b, ∃ w ∈ ws, t = w.text := by
  intro t ht
  simp only [getTextForRange, List.mem_map] at ht
  obtain ⟨w, hw, rfl⟩ := ht
  refine ⟨w, ?_, rfl⟩
  have hmem := (List.mem_filter.mp hw).1
  rw [sortWords] at hmem
  exact (List.mem_insertionSort _).mp hmem

/-- Every word of every text field of `s` satisfies `A`. -/
def sceneTextOK (A : String → Prop) (s : Scene) : Prop := ∀ t ∈ s.text, A t

lemma mkChunkScene_textOK {A : String → Prop} {q m : String} {ws : List Word}
    {part : ℕ} {p : ℚ × ℚ} (hA : ∀ w ∈ ws, A w.text) :
    sceneTextOK A (mkChunkScene q m ws part p) := by
  intro t ht
  simp only [mkChunkScene] at ht
  obtain ⟨w, hw, rfl⟩ := getTextForRange_sub t ht
  exact hA w hw

lemma splitByTime_textOK {A : String → Prop} {absorb : Bool} {sp : ℕ}
    {a b : ℚ} {q m : String} {ws : List Word} (hA : ∀ w ∈ ws, A w.text) :
    ∀ s ∈ splitByTime absorb sp a b q m ws, sceneTextOK A s := by
  intro s hs
  obtain ⟨k, p, hp, rfl⟩ := chunkScenes_mem hs
  exact mkChunkScene_textOK hA

lemma mergeShort_textOK {A : String → Prop} {prev c : Scene}
    (hp : sceneTextOK A prev) (hc : sceneTextOK A c) :
    sceneTextOK A (mergeShort prev c) := by
  intro t ht
  simp only [mergeShort] at ht
  split_ifs at ht with h
  · rcases List.mem_append.mp ht with h' | h'
    · exact hp t h'
    · exact hc t h'
  · exact hp t ht

lemma adjustOverlap_text (prev scene : Scene) :
    (adjustOverlap prev scene).text = scene.text := by
  unfold adjustOverlap
  split_ifs <;> rfl

lemma fillerScenes_textOK {A : String → Prop} {prev : Scene} {upto : ℚ} :
    ∀ f ∈ fillerScenes prev upto, sceneTextOK A f := by
  intro f hf t ht
  simp only [fillerScenes, List.mem_map] at hf
  obtain ⟨p, hp, rfl⟩ := hf
  simp at ht

lemma getLast?_mem {α : Type _} {l : List α} {a : α}
    (h : l.getLast? = some a) : a ∈ l := by
  obtain ⟨ys, rfl⟩ := List.getLast?_eq_some_iff.mp h
  simp

lemma pass2Step_textOK {A : String → Prop} {acc : List Scene} {r : Scene}
    (hacc : ∀ s ∈ acc, sceneTextOK A s) (hr : sceneTextOK A r) :
    ∀ s ∈ pass2Step acc r, sceneTextOK A s := by
  intro s hs
  cases hlast : acc.getLast? with
  | none =>
    simp only [pass2Step, hlast, List.mem_singleton] at hs
    subst hs; exact hr
  | some prev =>
    have hprev := hacc prev (getLast?_mem hlast)
    have hdrop : ∀ u ∈ acc.dropLast, sceneTextOK A u :=
      fun u hu => hacc u ((List.dropLast_sublist acc).subset hu)
    have hadj : sceneTextOK A (adjustOverlap prev r) := by
      intro t ht
      rw [adjustOverlap_text] at ht
      exact hr t ht
    simp only [pass2Step, hlast] at hs
    split_ifs at hs with h1 h2 h3
    · rcases List.mem_append.mp hs with hs | hs
      · rcases List.mem_append.mp hs with hs | hs
        · exact hdrop s hs
        · rw [List.mem_singleton] at hs; subst hs
          exact mergeShort_textOK hprev hr
      · exact fillerScenes_textOK s hs
    · rcases List.mem_append.mp hs with hs | hs
      · rcases List.mem_append.mp hs with hs | hs
        · exact hacc s hs
        · exact fillerScenes_textOK s hs
      · rw [List.mem_singleton] at hs; subst hs; exact hr
    · rcases List.mem_append.mp hs with hs | hs
      · exact hdrop s hs
      · rw [List.mem_singleton] at hs; subst hs
        exact mergeShort_textOK hprev hadj
    · rcases List.mem_append.mp hs with hs | hs
      · exact hacc s hs
      · rw [List.mem_singleton] at hs; subst hs; exact hadj

lemma pass2_textOK {A : String → Prop} {l : List Scene}
    (hl : ∀ s ∈ l, sceneTextOK A s) : ∀ s ∈ pass2 l, sceneTextOK A s := by
  rw [pass2]
  suffices h : ∀ (rest acc : List Scene),
      (∀ s ∈ acc, sceneTextOK A s) → (∀ s ∈ rest, sceneTextOK A s) →
      ∀ s ∈ rest.foldl pass2Step acc, sceneTextOK A s by
    exact h l [] (by simp) hl
  intro rest
  induction rest with
  | nil => intro acc hacc _ s hs; exact hacc s hs
  | cons r rest' ih =>
    intro acc hacc hrest s hs
    rw [List.foldl_cons] at hs
    exact ih (pass2Step acc r)
      (pass2Step_textOK hacc (hrest r (List.mem_cons_self r rest')))
      (fun t ht => hrest t (List.mem_cons_of_mem _ ht)) s hs

lemma pass3_textOK {A : String → Prop} {ws : List Word} {l : List Scene}
    (hl : ∀ s ∈ l, sceneTextOK A s) (hA : ∀ w ∈ ws, A w.text) :
    ∀ s ∈ pass3 ws l, sceneTextOK A s := by
  intro s hs
  rw [pass3, List.mem_flatMap] at hs
  obtain ⟨t, ht, hs⟩ := hs
  split_ifs at hs with hd
  · rw [List.mem_singleton] at hs; subst hs; exact hl _ ht
  · exact splitByTime_textOK hA s hs

lemma normalizeProposal_textOK {A : String → Prop} {ws : List Word}
    {p : RawProposal} {out : List Scene} (hp : normalizeProposal ws p = .ok out)
    (hPt : ∀ t ∈ p.text, A t) (hA : ∀ w ∈ ws, A w.text) :
    ∀ s ∈ out, sceneTextOK A s := by
  intro s hs
  cases hcs : coerceTime p.start_time with
  | error u => simp [normalizeProposal, bind, Except.bind, hcs] at hp
  | ok a =>
    cases hce : coerceTime p.end_time with
    | error u => simp [normalizeProposal, bind, Except.bind, hcs, hce] at hp
    | ok b =>
      simp only [normalizeProposal, bind, Except.bind, hcs, hce] at hp
      split_ifs at hp with h1 h2
      · simp only [pure, Except.pure, Except.ok.injEq] at hp
        subst hp; simp at hs
      · simp only [pure, Except.pure, Except.ok.injEq] at hp
        subst hp
        rw [List.mem_singleton] at hs
        subst hs
        intro t ht
        exact hPt t ht
      · simp only [pure, Except.pure, Except.ok.injEq] at hp
        subst hp
        exact splitByTime_textOK hA s hs

lemma pass1_textOK {A : String → Prop} {ws : List Word} :
    ∀ {ps : List RawProposal} {split : List Scene},
      pass1 ws ps = .ok split →
      (∀ p ∈ ps, ∀ t ∈ p.text, A t) → (∀ w ∈ ws, A w.text) →
      ∀ s ∈ split, sceneTextOK A s := by
  intro ps
  induction ps with
  | nil =>
    intro split hp _ _ s hs
    simp only [pass1, Except.ok.injEq] at hp
    subst hp; simp at hs
  | cons p rest ih =>
    intro split hp hPt hA s hs
    cases hn : normalizeProposal ws p with
    | error u => simp [pass1, bind, Except.bind, hn] at hp
    | ok s1 =>
      cases hrest : pass1 ws rest with
      | error u => simp [pass1, bind, Except.bind, hn, hrest] at hp
      | ok s2 =>
        simp only [pass1, bind, Except.bind, hn, hrest, pure, Except.pure,
          Except.ok.injEq] at hp
        subst hp
        rcases List.mem_append.mp hs with hs | hs
        · exact normalizeProposal_textOK hn
            (hPt p (List.mem_cons_self p rest)) hA s hs
        · exact ih hrest (fun q hq => hPt q (List.mem_cons_of_mem _ hq)) hA s hs

/-! ### The engine at the top level -/

lemma runEngine_cases (ws : List Word) (ps : List RawProposal) :
    runEngine ws ps = [] ∨
    ∃ split, pass1 ws ps = .ok split ∧
      runEngine ws ps = assignIds (pass3 ws (pass2
        (List.insertionSort (fun a b => a.start_time ≤ b.start_time) split))) := by
  by_cases hne : ps.isEmpty
  · left
    simp [runEngine, validateAndFixScenes, hne]
  · cases hp : pass1 ws ps with
    | error u =>
      left
      simp [runEngine, validateAndFixScenes, hne, bind, Except.bind, hp]
    | ok split =>
      by_cases hs : split.isEmpty
      · left
        simp [runEngine, validateAndFixScenes, hne, bind, Except.bind, hp, hs,
          pure, Except.pure]
      · right
        refine ⟨split, rfl, ?_⟩
        simp [runEngine, validateAndFixScenes, hne, bind, Except.bind, hp, hs,
          pure, Except.pure]

lemma runEngine_bad {ws : List Word} {ps : List RawProposal}
    (h : ∃ p ∈ ps, hasBadTime p) : runEngine ws ps = [] := by
  have hne : ¬ ps.isEmpty := by
    obtain ⟨p, hp, -⟩ := h
    cases ps
    · simp at hp
    · simp
  simp [runEngine, validateAndFixScenes, hne, bind, Except.bind, pass1_error h]

lemma chain_starts_mono {ps : List RawProposal}
    (hc : List.Chain' (fun p q => startOf q = endOf p) ps)
    (hd : ∀ p ∈ ps, 0 < endOf p - startOf p) :
    List.Chain' (fun a b : Scene => a.start_time ≤ b.start_time)
      (ps.map keepScene) := by
  rw [List.chain'_map]
  rw [List.chain'_iff_get] at hc ⊢
  intro i h
  have hrel := hc i h
  have hdur := hd (ps.get ⟨i, by omega⟩) (List.get_mem ps _ _)
  have hle : startOf (ps.get ⟨i, by omega⟩) ≤ startOf (ps.get ⟨i + 1, by omega⟩) := by
    rw [hrel]
    linarith
  simpa [keepScene] using round2_mono hle

/-- On well-formed proposals that are exactly contiguous with durations in
`[MIN_DURATION, MAX_DURATION]`, the engine only rounds the endpoints and
assigns ids. -/
lemma runEngine_characterize {ws : List Word} {ps : List RawProposal}
    (hg : ∀ p ∈ ps, goodTimed p)
    (hd : ∀ p ∈ ps, MIN_DURATION ≤ endOf p - startOf p ∧
      endOf p - startOf p ≤ MAX_DURATION)
    (hc : List.Chain' (fun p q => startOf q = endOf p) ps) :
    runEngine ws ps = assignIds (ps.map keepScene) := by
  by_cases hne : ps.isEmpty
  · rw [List.isEmpty_iff] at hne
    subst hne
    simp [runEngine, validateAndFixScenes, assignIds, assignIdsFrom]
  · have hdur0 : ∀ p ∈ ps, 0 < endOf p - startOf p ∧
        endOf p - startOf p ≤ MAX_DURATION := by
      intro p hp
      have h1 := (hd p hp).1
      have h2 := (hd p hp).2
      unfold MIN_DURATION at h1
      exact ⟨by linarith, h2⟩
    have hp1 : pass1 ws ps = .ok (ps.map keepScene) := pass1_keep hg hdur0
    have hmapne : ¬ (ps.map keepScene).isEmpty := by
      simp only [List.isEmpty_iff, List.map_eq_nil_iff]
      intro h
      rw [h] at hne
      simp at hne
    have hkd : ∀ s ∈ ps.map keepScene,
        MIN_DURATION ≤ s.end_time - s.start_time ∧
          s.end_time - s.start_time ≤ MAX_DURATION := by
      intro s hsm
      obtain ⟨p, hp, rfl⟩ := List.mem_map.mp hsm
      have h1 := (hd p hp).1
      have h2 := (hd p hp).2
      unfold MIN_DURATION at h1
      unfold MAX_DURATION at h2
      have hb := round2_dur_bounds h1 h2
      constructor
      · unfold MIN_DURATION
        simpa [keepScene] using hb.1
      · unfold MAX_DURATION
        simpa [keepScene] using hb.2
    have hchainK : List.Chain' (fun a b : Scene => b.start_time = a.end_time)
        (ps.map keepScene) := by
      rw [List.chain'_map]
      exact hc.imp (fun p q hpq => by simp [keepScene, hpq])
    haveI : IsTrans Scene (fun a b : Scene => a.start_time ≤ b.start_time) :=
      ⟨fun a b c hab hbc => le_trans hab hbc⟩
    have hsorted : List.Sorted (fun a b : Scene => a.start_time ≤ b.start_time)
        (ps.map keepScene) :=
      List.chain'_iff_pairwise.mp (chain_starts_mono hc (fun p hp => (hdur0 p hp).1))
    have hp2 : pass2 (ps.map keepScene) = ps.map keepScene :=
      pass2_id hchainK (fun s hs => (hkd s hs).1)
    have hp3 : pass3 ws (ps.map keepScene) = ps.map keepScene :=
      pass3_eq_self (fun s hs => (hkd s hs).2)
    simp [runEngine, validateAndFixScenes, hne, bind, Except.bind, hp1, hmapne,
      pure, Except.pure, hsorted.insertionSort_eq, hp2, hp3]

/-! ### Round-tripping output scenes into proposals -/

lemma map_sceneToProposal_assignIdsFrom :
    ∀ (l : List Scene) (n : ℕ),
      (assignIdsFrom n l).map sceneToProposal =
        l.map (fun s => sceneToProposal { toScene := s, id := 0 }) := by
  intro l
  induction l with
  | nil => intro n; rfl
  | cons s rest ih =>
    intro n
    simp only [assignIdsFrom, List.map_cons, ih (n + 1)]
    rfl

lemma startOf_sceneToProposal (s : Scene) (k : ℕ) :
    startOf (sceneToProposal { toScene := s, id := k }) = s.start_time := rfl

lemma endOf_sceneToProposal (s : Scene) (k : ℕ) :
    endOf (sceneToProposal { toScene := s, id := k }) = s.end_time := rfl

lemma keepScene_roundtrip (p : RawProposal) :
    keepScene (sceneToProposal { toScene := keepScene p, id := 0 }) =
      keepScene p := by
  simp [keepScene, sceneToProposal, startOf, endOf, round2_idem]

/-! ### Claim theorems -/

/-- Claim C1 (contiguity of the output timeline): refuted on the code.  On
proposals `[(0,5), (10,10.3)]` the reconciler inserts the filler `(5,10)`,
then the 0.3s second scene triggers the short-segment merge, which stretches
the first scene - already sitting before the filler - to `(0,10.3)`.  The
safety net re-splits it, and the output spans are
`[(0,8), (8,10.3), (5,10)]`: the adjacent pair `(8,10.3), (5,10)` violates
`abs(next.start_time - prev.end_time) <= 0.01` by 5.29s, contradicting the
function's own docstring ("No gaps between scenes", "No overlaps between
scenes"). -/
theorem contiguity_failure_run :
    (runEngine [] cexOverlapRun).map (fun s => (s.start_time, s.end_time)) =
      [(0, 8), (8, 103/10), (5, 10)] ∧
    ¬ |(5 : ℚ) - 103/10| ≤ 1/100 := by
  constructor
  · with_unfolding_all decide
  · rw [abs_sub_comm, abs_of_nonneg (by norm_num)]
    norm_num

/-- Claim C3 (minimum scene duration): refuted on the code.  With word
timings spanning 6s (≥ 0.5s) and proposals `[(0,5), (5.2,6)]`, the 0.2s gap
exceeds the 0.1s tolerance, so the reconciler emits the filler `(5, 5.2)` of
duration 0.2 < `MIN_DURATION`; it sits in the middle of the output, so it is
not an unavoidable final remainder. -/
theorem min_duration_counterexample :
    (runEngine cexTinyFillerWords cexTinyFiller).map
        (fun s => (s.start_time, s.end_time)) = [(0, 5), (5, 26/5), (26/5, 6)] ∧
    (26/5 : ℚ) - 5 < MIN_DURATION ∧
    MIN_DURATION ≤ (6 : ℚ) - 0 := by
  refine ⟨?_, ?_, ?_⟩ <;> with_unfolding_all decide

/-- Claim C3 amended: the 0.5s floor holds for the chunks of the pass-1
splitter (its trailing-remainder absorption guarantees it whenever the span
being split is at least `MIN_DURATION`), but not for the whole output: gap
fillers (see `min_duration_counterexample`), the unconditionally accepted
first scene, and the trailing chunk of a safety-net re-split can all be
shorter than 0.5s. -/
theorem splitter_chunk_min_duration (e c : ℚ) (h : MIN_DURATION ≤ e - c) :
    ∀ p ∈ chunkLoop true e c, MIN_DURATION ≤ p.2 - p.1 := by
  intro p hp
  have h' : 1/2 ≤ e - c := by simpa [MIN_DURATION] using h
  have := chunkGo_min_dur (chunkLoop_some true e c) h' p hp
  simpa [MIN_DURATION] using this

theorem splitter_chunk_min_duration_witness :
    (MIN_DURATION ≤ (11 : ℚ) - 0 ∧ ((8 : ℚ), (11 : ℚ)) ∈ chunkLoop true 11 0) ∧
      MIN_DURATION ≤ (11 : ℚ) - 8 :=
  ⟨⟨by with_unfolding_all decide, by with_unfolding_all decide⟩,
   splitter_chunk_min_duration 11 0 (by with_unfolding_all decide) (8, 11)
     (by with_unfolding_all decide)⟩

/-- Claim C4 (scenario 1): the code disagrees with the claimed visual
queries.  The pass-1 splitter initializes `part = 1`, so the first chunk
gets `SPLIT_VARIATIONS[1] = ", different angle"` and the second chunk gets
`SPLIT_VARIATIONS[2] = ", close-up shot"`, although the in-code comment on
`SPLIT_VARIATIONS[0]` says "First chunk keeps original".  The chunk spans
are `0-8` and `8-15` as claimed. -/
theorem split_variation_run :
    (runEngine scenario1Words scenario1Props).map
        (fun s => (s.id, s.start_time, s.end_time, s.text, s.visual_query)) =
      [(1, 0, 8, ["hello"], "q, different angle"),
       (2, 8, 15, ["world"], "q, close-up shot")] := by
  with_unfolding_all decide

/-- Claim C5 (no word invention): refuted on the code.  A proposal of
duration at most 10s is kept as-is with its own `text` copied through, so
the output word "hello" appears even though no word timing says "hello". -/
theorem word_invention_counterexample :
    runEngine cexInventedWords cexInvented =
      [⟨⟨0, 5, ["hello"], "", "pollinations"⟩, 1⟩] ∧
    ¬ ∃ w ∈ cexInventedWords, "hello" = w.text := by
  constructor <;> with_unfolding_all decide

/-- Claim C5 amended: every word in any output `text` field comes either
from some input proposal's own `text` (scenes kept as-is, and merges of
them) or from the word timings (split and re-split chunks, via
`TextForRange`); only the latter guarantee matches the original claim. -/
theorem output_words_from_inputs (ws : List Word) (ps : List RawProposal) :
    ∀ o ∈ runEngine ws ps, ∀ t ∈ o.text,
      (∃ p ∈ ps, t ∈ p.text) ∨ ∃ w ∈ ws, t = w.text := by
  intro o ho t ht
  rcases runEngine_cases ws ps with h | ⟨split, hsplit, h⟩
  · rw [h] at ho; simp at ho
  · rw [h] at ho
    have hmem := assignIdsFrom_mem ho
    have hAw : ∀ w ∈ ws,
        (fun t => (∃ p ∈ ps, t ∈ p.text) ∨ ∃ w ∈ ws, t = w.text) w.text :=
      fun w hw => Or.inr ⟨w, hw, rfl⟩
    have hsplitOK := pass1_textOK (A := fun t =>
        (∃ p ∈ ps, t ∈ p.text) ∨ ∃ w ∈ ws, t = w.text)
      hsplit (fun p hp t' ht' => Or.inl ⟨p, hp, ht'⟩) hAw
    have hsortOK : ∀ s ∈ List.insertionSort
        (fun a b : Scene => a.start_time ≤ b.start_time) split,
        sceneTextOK (fun t => (∃ p ∈ ps, t ∈ p.text) ∨ ∃ w ∈ ws, t = w.text) s :=
      fun s hs => hsplitOK s ((List.mem_insertionSort _).mp hs)
    exact pass3_textOK (pass2_textOK hsortOK) hAw _ hmem t ht

theorem output_words_from_inputs_witness :
    ((⟨⟨0, 5, ["a"], "", "pollinations"⟩, 1⟩ : OutScene) ∈
        runEngine [] [mkProp 0 5 ["a"]] ∧
      "a" ∈ (⟨⟨0, 5, ["a"], "", "pollinations"⟩, 1⟩ : OutScene).text) ∧
    ((∃ p ∈ [mkProp 0 5 ["a"]], "a" ∈ p.text) ∨
      ∃ w ∈ ([] : List Word), "a" = w.text) :=
  ⟨⟨by with_unfolding_all decide, by decide⟩,
   output_words_from_inputs [] [mkProp 0 5 ["a"]]
     ⟨⟨0, 5, ["a"], "", "pollinations"⟩, 1⟩
     (by with_unfolding_all decide) "a" (by decide)⟩

/-- Claim C6 (malformed proposal dropped, run continues): refuted on the
code.  A proposal whose `start_time` is not float-coercible makes
`float(...)` raise inside `_validate_and_fix_scenes`; the caller's blanket
`except` turns the whole run into an empty scene list, so the well-formed
proposal `(0,5)` is lost too - whereas running on the well-formed proposal
alone yields one scene.  (A *missing* field is not dropped either: it is
coerced to 0.) -/
theorem malformed_abort_counterexample :
    runEngine [] [goodProp, badProp] = [] ∧
    runEngine [] [goodProp] = [⟨⟨0, 5, [], "", "pollinations"⟩, 1⟩] := by
  constructor <;> with_unfolding_all decide

/-- Claim C6 amended: a proposal with a non-float-coercible timing field
aborts validation and the caller returns an empty scene list, regardless of
how many well-formed proposals accompany it. -/
theorem bad_time_field_aborts (ws : List Word) (ps : List RawProposal)
    (h : ∃ p ∈ ps, hasBadTime p) : runEngine ws ps = [] :=
  runEngine_bad h

theorem bad_time_field_aborts_witness :
    (∃ p ∈ [goodProp, badProp], hasBadTime p) ∧
      runEngine [] [goodProp, badProp] = [] :=
  ⟨⟨badProp, by decide, Or.inl rfl⟩,
   bad_time_field_aborts [] [goodProp, badProp]
     ⟨badProp, by decide, Or.inl rfl⟩⟩

/-- Claim C7 (safety net re-splits exactly like the pass-1 splitter):
refuted on the code.  The proposals `[(0,5), (16,16.3)]` make the reconciler
merge-stretch the first scene to `(0,16.3)` (duration 16.3 > `MAX_DURATION`,
so it reaches the safety net).  The safety net has no tiny-remainder
absorption and starts its variation index at 0, so it produces chunks
`(0,8), (8,16), (16,16.3)` - the last only 0.3s - while the pass-1 splitter
on the same span produces `(0,8), (8,16.3)`, with different suffixes as
well. -/
theorem resplit_mismatch_counterexample :
    (pass2 (List.insertionSort (fun a b => a.start_time ≤ b.start_time)
        ((pass1 [] cexResplit).toOption.getD []))).map
      (fun s => (s.start_time, s.end_time)) =
      [(0, 163/10), (5, 13), (13, 16)] ∧
    MAX_DURATION < (163/10 : ℚ) - 0 ∧
    (splitByTime false 0 0 (163/10) "qa" "pollinations" []).map
        (fun s => (s.start_time, s.end_time, s.visual_query)) =
      [(0, 8, "qa"), (8, 16, "qa, different angle"),
       (16, 163/10, "qa, close-up shot")] ∧
    (splitByTime true 1 0 (163/10) "qa" "pollinations" []).map
        (fun s => (s.start_time, s.end_time, s.visual_query)) =
      [(0, 8, "qa, different angle"), (8, 163/10, "qa, close-up shot")] := by
  refine ⟨?_, ?_, ?_, ?_⟩ <;> with_unfolding_all decide

/-- Claim C7 amended: when no point of the 8s walk leaves a remainder in
`(0, 0.5)` (so the pass-1 absorption never fires), the safety-net re-split
produces the same chunk boundaries and the same `TextForRange`-derived texts
as the pass-1 splitter; the visual-query suffixes still differ, because
pass 3 indexes `SPLIT_VARIATIONS` from 0 and pass 1 from 1. -/
theorem resplit_agrees_without_tiny_remainder (a b : ℚ) (q m : String)
    (ws : List Word)
    (h : ∀ k : ℕ, ¬(0 < b - a - 8 * (k : ℚ) ∧ b - a - 8 * (k : ℚ) < 1/2)) :
    (splitByTime false 0 a b q m ws).map
        (fun s => (s.start_time, s.end_time, s.text)) =
      (splitByTime true 1 a b q m ws).map
        (fun s => (s.start_time, s.end_time, s.text)) := by
  unfold splitByTime
  rw [chunkLoop_agree h]
  exact chunkScenes_map_triple _ 0 1

theorem resplit_agrees_without_tiny_remainder_witness :
    (splitByTime false 0 0 16 "q" "pollinations" []).map
        (fun s => (s.start_time, s.end_time, s.text)) =
      (splitByTime true 1 0 16 "q" "pollinations" []).map
        (fun s => (s.start_time, s.end_time, s.text)) :=
  resplit_agrees_without_tiny_remainder 0 16 "q" "pollinations" [] (by
    intro k
    match k with
    | 0 => norm_num
    | 1 => norm_num
    | (k + 2) =>
      intro hcon
      have hk : (0 : ℚ) ≤ (k : ℚ) := Nat.cast_nonneg k
      have h1 := hcon.1
      push_cast at h1
      linarith)

lemma flRound_half_le {x : ℚ} (hx : 0 < x) : x / 2 ≤ flRound x := by
  have hne : x ≠ 0 := ne_of_gt hx
  unfold flRound
  rw [if_neg hne, abs_of_pos hx]
  set z : ℤ := Int.log 2 x - 52 with hz
  have h2 : (0:ℚ) < 2 := by norm_num
  have hupos : (0:ℚ) < 2 ^ z := zpow_pos h2 z
  have hle : ((2:ℕ) : ℚ) ^ (Int.log 2 x) ≤ x :=
    Int.zpow_log_le_self (by norm_num) hx
  have hsplit : (2:ℚ) ^ z * 2 ^ (52:ℤ) = (2:ℚ) ^ (Int.log 2 x) := by
    rw [← zpow_add₀ (by norm_num : (2:ℚ) ≠ 0)]
    congr 1
    omega
  have hone : (1:ℚ) ≤ 2 ^ (52:ℤ) := by
    rw [show ((52:ℤ)) = ((52:ℕ) : ℤ) from rfl, zpow_natCast]
    norm_num
  have hzx : (2:ℚ) ^ z ≤ x := by
    calc (2:ℚ) ^ z ≤ 2 ^ z * 2 ^ (52:ℤ) :=
          le_mul_of_one_le_right (le_of_lt hupos) hone
      _ = (2:ℚ) ^ (Int.log 2 x) := hsplit
      _ ≤ x := by push_cast at hle; exact hle
  have hrhe := sub_half_le_roundHalfEven (x / 2 ^ z)
  have hmul : (x / 2 ^ z - 1/2) * 2 ^ z ≤
      (roundHalfEven (x / 2 ^ z) : ℚ) * 2 ^ z :=
    mul_le_mul_of_nonneg_right hrhe (le_of_lt hupos)
  have hexp : (x / 2 ^ z - 1/2) * 2 ^ z = x - 2 ^ z / 2 := by
    field_simp
    ring
  linarith

lemma flAdd_saturates : flAdd ((2:ℚ) ^ 56) 8 = 2 ^ 56 := by
  have hx : (0:ℚ) < 2 ^ 56 + 8 := by positivity
  have hlog : Int.log 2 ((2:ℚ) ^ 56 + 8) = 56 := by
    have h1 : ((2:ℕ) : ℚ) ^ ((56:ℕ) : ℤ) ≤ (2:ℚ) ^ 56 + 8 := by
      rw [zpow_natCast]
      push_cast
      linarith
    have h2 : (2:ℚ) ^ 56 + 8 < ((2:ℕ) : ℚ) ^ ((57:ℕ) : ℤ) := by
      rw [zpow_natCast]
      push_cast
      norm_num
    have hle := (Int.zpow_le_iff_le_log (by norm_num) hx).mp h1
    have hlt := (Int.lt_zpow_iff_log_lt (by norm_num) hx).mp h2
    omega
  unfold flAdd flRound
  rw [if_neg (by positivity), abs_of_pos hx, hlog]
  have hz : (56:ℤ) - 52 = ((4:ℕ) : ℤ) := by norm_num
  rw [hz, zpow_natCast]
  have hdiv : ((2:ℚ) ^ 56 + 8) / 2 ^ (4:ℕ) = ((2 ^ 52 : ℤ) : ℚ) + 1/2 := by
    push_cast
    norm_num
  rw [hdiv]
  have hfloor : ⌊((2 ^ 52 : ℤ) : ℚ) + 1/2⌋ = 2 ^ 52 := by
    rw [add_comm, Int.floor_add_int]
    norm_num
  unfold roundHalfEven
  rw [hfloor]
  have hfrac : ((2 ^ 52 : ℤ) : ℚ) + 1/2 - ((2 ^ 52 : ℤ) : ℚ) = 1/2 := by ring
  rw [hfrac]
  rw [if_neg (by norm_num), if_neg (by norm_num), if_pos (by decide)]
  push_cast
  norm_num

/-- Claim C8 (termination and strict progress of the chunking loops):
refuted on the program.  In binary64, `2^56 + 8.0 == 2^56` (the 8 is half
an ulp there and the tie rounds to the even significand), so on a proposal
spanning `[2^56, 10^18]` the source's `while current_time < end` loop
computes `chunk_end == current_time`, makes no progress, and never ends -
no amount of fuel completes `floatChunkGo` - although the exact-rational
idealisation of the same loop always finishes (`chunkGo_isSome`) with
strictly increasing chunks (`chunkStep_gt`). -/
theorem chunk_loop_float_stall :
    floatChunkStep true (10 ^ 18) ((2:ℚ) ^ 56) = 2 ^ 56 ∧
    ∀ n : ℕ, floatChunkGo true (10 ^ 18) n ((2:ℚ) ^ 56) = none := by
  have hmin : min (flAdd ((2:ℚ) ^ 56) FILLER_CHUNK_SIZE) (10 ^ 18) = 2 ^ 56 := by
    rw [show FILLER_CHUNK_SIZE = (8:ℚ) from rfl, flAdd_saturates]
    exact min_eq_left (by norm_num)
  have hsub : (1:ℚ)/2 ≤ flSub (10 ^ 18) (2 ^ 56) := by
    unfold flSub
    have hpos : (0:ℚ) < 10 ^ 18 - 2 ^ 56 := by norm_num
    have hhalf := flRound_half_le hpos
    have : (1:ℚ)/2 ≤ (10 ^ 18 - 2 ^ 56) / 2 := by norm_num
    linarith
  have hstep : floatChunkStep true (10 ^ 18) ((2:ℚ) ^ 56) = 2 ^ 56 := by
    unfold floatChunkStep
    rw [hmin, if_neg]
    intro hcon
    have h2 := hcon.2.2
    unfold MIN_DURATION at h2
    linarith
  have hlt : ((2:ℚ) ^ 56) < 10 ^ 18 := by norm_num
  refine ⟨hstep, ?_⟩
  intro n
  induction n with
  | zero => simp [floatChunkGo, hlt]
  | succ n ih => simp [floatChunkGo, hlt, hstep, ih]

/-- Claim C9 (sorted output with ids 1..N): the id half always holds (see
`ids_are_sequential`), but the sortedness half is refuted on the code: on
`cexOverlapRun` the output start times are `[0, 8, 5]`, which is not
non-decreasing, because the short-segment merge stretched a scene that sits
before the fillers. -/
theorem output_order_counterexample :
    (runEngine [] cexOverlapRun).map (fun s => s.start_time) = [0, 8, 5] ∧
    ¬ ((8 : ℚ) ≤ 5) := by
  constructor <;> with_unfolding_all decide

/-- Claim C9 amended: the engine's output always carries `id = i + 1` at
list position `i` (ids are `1..N` in list order, assigned by the final
enumeration), but the list itself is not guaranteed to be sorted by
`start_time` (see `output_order_counterexample`). -/
theorem ids_are_sequential (ws : List Word) (ps : List RawProposal) (i : ℕ)
    (h : i < (runEngine ws ps).length) :
    ((runEngine ws ps).get ⟨i, h⟩).id = i + 1 := by
  rcases runEngine_cases ws ps with he | ⟨split, -, he⟩
  · rw [he] at h
    simp at h
  · have h' : i < (assignIds (pass3 ws (pass2 (List.insertionSort
        (fun a b => a.start_time ≤ b.start_time) split)))).length := by
      rw [← he]
      exact h
    rw [List.get_of_eq he]
    simp only [assignIds] at h' ⊢
    rw [assignIdsFrom_get _ 1 i h']
    omega

theorem ids_are_sequential_witness :
    (1 < (runEngine [] cexOverlapRun).length) ∧
      ((runEngine [] cexOverlapRun).get
        ⟨1, by with_unfolding_all decide⟩).id = 2 :=
  ⟨by with_unfolding_all decide,
   ids_are_sequential [] cexOverlapRun 1 (by with_unfolding_all decide)⟩

/-- Claim C10 (idempotence under valid input): refuted on the code.
`cexIdem` satisfies the claim's hypotheses (exact contiguity and all
durations at most 10s), yet its thirteen 0.49s scenes are merged into the
leading 10s scene, stretching it to 16.37s; the safety net re-splits that
into `(0,8), (8,16), (16,16.37)`, and a second engine run merges the 0.37s
chunk away again: the two outputs have 4 and 3 scenes. -/
theorem idempotence_counterexample :
    List.Chain' (fun p q => startOf q = endOf p) cexIdem ∧
    (∀ p ∈ cexIdem, endOf p - startOf p ≤ MAX_DURATION) ∧
    (runEngine [] ((runEngine [] cexIdem).map sceneToProposal)).length ≠
      (runEngine [] cexIdem).length := by
  refine ⟨?_, ?_, ?_⟩
  · rw [List.chain'_iff_get]
    with_unfolding_all decide
  · with_unfolding_all decide
  · with_unfolding_all decide

/-- Claim C10 amended: idempotence does hold when, in addition to
contiguity and the duration cap, every input proposal also meets the 0.5s
minimum duration - then no merge fires, the engine only rounds endpoints
and assigns ids, and re-running it on its own output reproduces that output
exactly. -/
theorem engine_idempotent_on_min_duration_input (ws : List Word)
    (ps : List RawProposal)
    (hg : ∀ p ∈ ps, goodTimed p)
    (hd : ∀ p ∈ ps, MIN_DURATION ≤ endOf p - startOf p ∧
      endOf p - startOf p ≤ MAX_DURATION)
    (hc : List.Chain' (fun p q => startOf q = endOf p) ps) :
    runEngine ws ((runEngine ws ps).map sceneToProposal) = runEngine ws ps := by
  rw [runEngine_characterize hg hd hc]
  rw [assignIds, map_sceneToProposal_assignIdsFrom, List.map_map]
  have hg2 : ∀ q ∈ ps.map ((fun s => sceneToProposal { toScene := s, id := 0 })
      ∘ keepScene), goodTimed q := by
    intro q hq
    obtain ⟨p, hp, rfl⟩ := List.mem_map.mp hq
    exact ⟨⟨_, rfl⟩, ⟨_, rfl⟩⟩
  have hd2 : ∀ q ∈ ps.map ((fun s => sceneToProposal { toScene := s, id := 0 })
      ∘ keepScene), MIN_DURATION ≤ endOf q - startOf q ∧
      endOf q - startOf q ≤ MAX_DURATION := by
    intro q hq
    obtain ⟨p, hp, rfl⟩ := List.mem_map.mp hq
    show MIN_DURATION ≤ endOf (sceneToProposal ⟨keepScene p, 0⟩) -
        startOf (sceneToProposal ⟨keepScene p, 0⟩) ∧ _
    rw [endOf_sceneToProposal, startOf_sceneToProposal]
    have h1 := (hd p hp).1
    have h2 := (hd p hp).2
    unfold MIN_DURATION at h1 ⊢
    unfold MAX_DURATION at h2 ⊢
    simp only [keepScene]
    exact round2_dur_bounds h1 h2
  have hc2 : List.Chain' (fun p q => startOf q = endOf p)
      (ps.map ((fun s => sceneToProposal { toScene := s, id := 0 })
        ∘ keepScene)) := by
    rw [List.chain'_map]
    refine hc.imp (fun p q hpq => ?_)
    show startOf (sceneToProposal ⟨keepScene q, 0⟩) =
      endOf (sceneToProposal ⟨keepScene p, 0⟩)
    rw [startOf_sceneToProposal, endOf_sceneToProposal]
    simp only [keepScene]
    rw [hpq]
  rw [runEngine_characterize hg2 hd2 hc2]
  show assignIds _ = assignIds _
  rw [assignIds, assignIds, List.map_map]
  congr 1
  apply List.map_congr_left
  intro p hp
  exact keepScene_roundtrip p

theorem engine_idempotent_witness :
    ((∀ p ∈ [mkProp 0 5, mkProp 5 9], goodTimed p) ∧
     (∀ p ∈ [mkProp 0 5, mkProp 5 9],
        MIN_DURATION ≤ endOf p - startOf p ∧
          endOf p - startOf p ≤ MAX_DURATION) ∧
     List.Chain' (fun p q => startOf q = endOf p) [mkProp 0 5, mkProp 5 9]) ∧
    runEngine [] ((runEngine [] [mkProp 0 5, mkProp 5 9]).map sceneToProposal) =
      runEngine [] [mkProp 0 5, mkProp 5 9] :=
  ⟨⟨by
      intro p hp
      rcases List.mem_cons.mp hp with rfl | hp
      · exact ⟨⟨0, rfl⟩, ⟨5, rfl⟩⟩
      rcases List.mem_cons.mp hp with rfl | hp
      · exact ⟨⟨5, rfl⟩, ⟨9, rfl⟩⟩
      · simp at hp,
    by with_unfolding_all decide,
    List.chain'_iff_get.mpr (by with_unfolding_all decide)⟩,
   engine_idempotent_on_min_duration_input [] [mkProp 0 5, mkProp 5 9]
     (by
       intro p hp
       rcases List.mem_cons.mp hp with rfl | hp
       · exact ⟨⟨0, rfl⟩, ⟨5, rfl⟩⟩
       rcases List.mem_cons.mp hp with rfl | hp
       · exact ⟨⟨5, rfl⟩, ⟨9, rfl⟩⟩
       · simp at hp)
     (by with_unfolding_all decide)
     (List.chain'_iff_get.mpr (by with_unfolding_all decide))⟩
